import Mathlib

/-!
Verification of the universal search engine (scoring/matching core).

The development shallowly embeds the TypeScript sources:
  * `src/index.ts` — the baseline engine (full-matrix Levenshtein, field
    statistics over the whole collection, full scan before sorting);
  * the optimized engine variant — two-row Levenshtein, first-100 sampling for
    field statistics, an identity-keyed field-stats cache and an early
    termination of the scan after `limit * 3` collected results.

Modelling conventions:
  * JS strings are `String` (sequences of `Char`); the JS string methods used
    by the engine (`trim`, `toLowerCase`, `split`, `startsWith`,
    `indexOf` / `includes`) are re-implemented below as structural recursions
    on `List Char` so that every definition evaluates by kernel reduction.
  * JS numbers are modelled as exact rationals `ℚ` (the engine's arithmetic:
    `+ - * /`, `Math.max`, `Math.min`, comparisons).
  * Records are the JSON-like `Value` type.  Property access models own
    properties (object fields, array indices and array `length`); the
    prototype chain is not modelled.  JS object literals have distinct keys,
    so `obj` lookup takes the first binding.
  * Fallible code paths (a truthy non-string field value reaching
    `text.toLowerCase()` would raise a `TypeError` in JS) are modelled with
    `Option`: `none` is an exception escaping `search`.
  * `Array.prototype.sort` is required by the JS spec to be stable, and for a
    consistent comparator the stable-sorted output is unique; it is modelled
    by a stable insertion sort using the "may come first" relation derived
    from the engine's comparator (score descending, then summed matched-value
    length ascending).
  * The optimized variant's fuzzy loop enumerates the maximal
    whitespace-free runs of length ≥ 3, exactly the words of length ≥ 3
    produced by `split(/\s+/)` in the baseline (extra empty fragments from a
    split are discarded by the length-≥-3 guard), so both variants share one
    embedding of `calculateFieldScore`.  Its lowercase memoization
    (`getProcessedString`) caches the pure `toLowerCase` transform, so it is
    embedded as the transform itself; the observable cache state of the
    optimized engine is the field-statistics entry for the searched
    collection (the `fieldStatsCache` WeakMap slot), threaded explicitly.
-/

attribute [local semireducible] Rat.add Rat.sub Rat.mul Rat.inv

/-- JS `String.prototype.trim`: drop whitespace from both ends. -/
def jsTrim (s : List Char) : List Char :=
  ((s.dropWhile Char.isWhitespace).reverse.dropWhile Char.isWhitespace).reverse

/-- JS `String.prototype.toLowerCase` on the character list. -/
def jsToLower (s : List Char) : List Char :=
  s.map Char.toLower

/-- JS `String.prototype.toLowerCase` on strings. -/
def lowerStr (s : String) : String :=
  String.mk (jsToLower s.data)

/-- JS `str.split(sep)` for a single-character separator (used with `"."`).
`"".split(".")` is `[""]`, matching the JS behaviour. -/
def splitOnChar (sep : Char) : List Char → List (List Char)
  | [] => [[]]
  | c :: rest =>
    let r := splitOnChar sep rest
    if c = sep then [] :: r
    else
      match r with
      | [] => [[c]]
      | w :: ws => (c :: w) :: ws

/-- Split a character list at every character satisfying `p`.  Used with
`Char.isWhitespace` to model `split(/\s+/)`: the two differ only in empty
fragments, which the engine's length-≥-3 word guard discards. -/
def splitByPred (p : Char → Bool) : List Char → List (List Char)
  | [] => [[]]
  | c :: rest =>
    let r := splitByPred p rest
    if p c then [] :: r
    else
      match r with
      | [] => [[c]]
      | w :: ws => (c :: w) :: ws

/-- JS `hay.indexOf(needle)`: the least index at which `needle` occurs as a
contiguous substring of `hay`, `none` when there is no occurrence
(`indexOf` result `-1`).  Also decides `hay.includes(needle)`. -/
def indexOfSub (needle : List Char) : List Char → Option Nat
  | [] => if needle.isPrefixOf [] then some 0 else none
  | c :: t =>
    if needle.isPrefixOf (c :: t) then some 0
    else (indexOfSub needle t).map (fun i => i + 1)

/-- One inner step of the Levenshtein dynamic program: given the previous
row's remaining cells (`diag :: rest`, starting at column `j - 1`) and the
current row's cell at column `j - 1` (`left`), emit the current row's cells
from column `j` on, walking the remaining characters of `str1`.  This is the
loop body `curr[j] = min(prev[j] + 1, curr[j-1] + 1, prev[j-1] + cost)`
shared by both source implementations. -/
def levRowAux (c2 : Char) : List Char → Nat → List Nat → List Nat
  | [], _, _ => []
  | _ :: _, _, [] => []
  | c1 :: cs, left, diag :: rest =>
    let pj := rest.headD 0
    let cost := if c1 = c2 then 0 else 1
    let v := min (pj + 1) (min (left + 1) (diag + cost))
    v :: levRowAux c2 cs v rest

/-- Row `i` of the Levenshtein matrix computed from row `i - 1` (`prev`):
`curr[0] = i`, then the inner loop over `str1`. -/
def levRowStep (s1 : List Char) (prev : List Nat) (c2 : Char) (i : Nat) : List Nat :=
  i :: levRowAux c2 s1 i prev

/-- The outer loop of the dynamic program: fold the rows over `str2`.  The
baseline implementation materializes the whole matrix row by row, the
optimized implementation keeps only two rows; both compute exactly this row
sequence. -/
def levRows (s1 : List Char) : List Char → Nat → List Nat → List Nat
  | [], _, prev => prev
  | c2 :: rest, i, prev => levRows s1 rest (i + 1) (levRowStep s1 prev c2 i)

/-- The source function `levenshteinDistance` from `src/index.ts`: run the dynamic program with
first row `[0, 1, …, |str1|]` and read the final row's last cell
(`matrix[str2.length][str1.length]`). -/
def levenshteinDistance (str1 str2 : List Char) : Nat :=
  (levRows str1 str2 1 (List.range (str1.length + 1))).getD str1.length 0

/-- The optimized two-row `levenshteinDistance`: swap the arguments so that
the row-indexing string is the shorter one, then run the same dynamic
program. -/
def levenshteinDistanceOpt (str1 str2 : List Char) : Nat :=
  if str2.length < str1.length then
    (levRows str2 str1 1 (List.range (str2.length + 1))).getD str2.length 0
  else
    (levRows str1 str2 1 (List.range (str1.length + 1))).getD str1.length 0

/-- JSON-like record values: the data model the engine searches over. -/
inductive Value where
  | str (s : String)
  | num (q : ℚ)
  | bool (b : Bool)
  | null
  | obj (fields : List (String × Value))
  | arr (elems : List Value)

/-- JS `Object.entries`: own enumerable properties in declaration order.  For
arrays these are the index/element pairs (`length` is not enumerable). -/
def valueEntries : Value → List (String × Value)
  | .obj fs => fs
  | .arr es => es.enum.map (fun iv => (Nat.repr iv.1, iv.2))
  | _ => []

/-- The guarded JS property read
`current && typeof current === "object" && key in current ? current[key]`:
`some` when `current` is a non-null object holding `key` as an own property
(for arrays: an index, or `length`), `none` otherwise. -/
def jsLookup : Value → String → Option Value
  | .obj fs, key => (fs.find? (fun kv => kv.1 = key)).map (fun kv => kv.2)
  | .arr es, key =>
    if key = "length" then some (.num es.length)
    else ((es.enum.map (fun iv => (Nat.repr iv.1, iv.2))).find?
      (fun kv => kv.1 = key)).map (fun kv => kv.2)
  | _, _ => none

/-- The source function `getNestedValue`: split the dotted path, reduce over the
keys substituting `""` whenever the guarded read fails, and coalesce a final
`null` with `?? ""`. -/
def getNestedValue (obj : Value) (path : String) : Value :=
  let r := (splitOnChar '.' path.data).foldl
    (fun current key =>
      match jsLookup current (String.mk key) with
      | some v => v
      | none => .str "")
    obj
  match r with
  | .null => .str ""
  | v => v

/-- Reference path resolution for the amended C3 claim: `some v` when every
segment of the path is an own property of the object reached so far, `none`
as soon as a segment fails to resolve. -/
def resolvePath : Value → List String → Option Value
  | v, [] => some v
  | v, k :: ks =>
    match jsLookup v k with
    | some w => resolvePath w ks
    | none => none

/-- JS truthiness test on record values (`!item`, `!text`). -/
def jsFalsy : Value → Bool
  | .str s => decide (s = "")
  | .num q => decide (q = 0)
  | .bool b => !b
  | .null => true
  | .obj _ => false
  | .arr _ => false

/-- The source function `detectStringFields`, with the depth bound as structural
fuel: non-empty string-valued own properties are fields at their dotted
path; plain (non-null, non-array) nested objects are recursed into with
`maxDepth - 1`; at depth 0, or on a value that is not an object, no fields
are produced. -/
def detectStringFields : Nat → Value → String → List String
  | 0, _, _ => []
  | maxDepth + 1, v, pre =>
    (valueEntries v).flatMap (fun kv =>
      let fieldPath := if pre = "" then kv.1 else pre ++ "." ++ kv.1
      match kv.2 with
      | .str s => if 0 < s.length then [fieldPath] else []
      | .obj fs => detectStringFields maxDepth (.obj fs) fieldPath
      | _ => [])

/-- The three match classifications. -/
inductive MatchType where
  | exactStart
  | exactContain
  | fuzzy
deriving DecidableEq

/-- A field-level hit (`SearchMatch` in the source). -/
structure SearchMatch where
  field : String
  value : String
  score : ℚ
  type : MatchType
  position : Option Nat
deriving DecidableEq

/-- The matcher-relevant options, already defaulted (`Required<Pick<…>>`). -/
structure MatchOptions where
  fuzzyThreshold : ℚ
  minFuzzyLength : Nat
  caseSensitive : Bool

/-- Comparison normalization: lower-case unless the search is
case-sensitive. -/
def normalized (caseSensitive : Bool) (s : String) : String :=
  if caseSensitive then s else lowerStr s

/-- The fuzzy similarity `(maxLen - distance) / maxLen` of one word against
the query, with `maxLen = max(word.length, query.length)` and the edit
distance computed by the engine's `levenshteinDistance`. -/
def fuzzySimilarity (word searchQuery : List Char) : ℚ :=
  (((max word.length searchQuery.length : Nat) : ℚ) - ((levenshteinDistance word searchQuery : Nat) : ℚ)) /
    ((max word.length searchQuery.length : Nat) : ℚ)

/-- The fuzzy candidate score
`weight * similarity * (2 + max(1, 50 / text.length))`. -/
def fuzzyScore (text : String) (searchQuery word : List Char) (fieldWeight : ℚ) : ℚ :=
  fieldWeight * fuzzySimilarity word searchQuery * (2 + max 1 ((50 : ℚ) / (text.length : ℚ)))

/-- One fuzzy candidate for a single word of the (normalized) field text:
`some` exactly when the word has length ≥ 3 and its normalized similarity to
the query reaches the threshold. -/
def fuzzyCandidate (text : String) (searchQuery : List Char) (fieldWeight : ℚ)
    (options : MatchOptions) (word : List Char) : Option SearchMatch :=
  if 3 ≤ word.length then
    if options.fuzzyThreshold ≤ fuzzySimilarity word searchQuery then
      some { field := "", value := text
             score := fuzzyScore text searchQuery word fieldWeight
             type := .fuzzy, position := none }
    else none
  else none

/-- The `bestMatch` update of the fuzzy loop: replace the current best only
when the candidate scores strictly higher (`score > bestMatch.score`). -/
def betterFuzzy (best cand : Option SearchMatch) : Option SearchMatch :=
  match cand, best with
  | some c, some b => if b.score < c.score then some c else some b
  | some c, none => some c
  | none, b => b

/-- The fuzzy loop: fold the words of the field text, keeping the single
best-scoring qualifying candidate. -/
def bestFuzzy (text : String) (searchQuery : List Char) (fieldWeight : ℚ)
    (options : MatchOptions) (words : List (List Char)) : Option SearchMatch :=
  words.foldl (fun best word => betterFuzzy best (fuzzyCandidate text searchQuery fieldWeight options word)) none

/-- The source function `calculateFieldScore`: empty text or query produce no
match; otherwise classify, in strict priority order, as exact-start
(score `weight * 20`, position 0), exact-contain at the first occurrence
(score `max(weight * (10 + lengthBonus - position * 0.1), weight)`), or, when
the query is long enough, the best fuzzy word match. -/
def calculateFieldScore (text query : String) (fieldWeight : ℚ)
    (options : MatchOptions) : Option SearchMatch :=
  if text = "" ∨ query = "" then none
  else
    let searchText := normalized options.caseSensitive text
    let searchQuery := normalized options.caseSensitive query
    if searchQuery.data.isPrefixOf searchText.data then
      some { field := "", value := text, score := fieldWeight * 20
             type := .exactStart, position := some 0 }
    else
      match indexOfSub searchQuery.data searchText.data with
      | some position =>
        let lengthBonus := max 1 ((100 : ℚ) / (text.length : ℚ))
        let positionPenalty := (position : ℚ) * (1 / 10)
        let score := fieldWeight * (10 + lengthBonus - positionPenalty)
        some { field := "", value := text, score := max score fieldWeight
               type := .exactContain, position := some position }
      | none =>
        if options.minFuzzyLength ≤ searchQuery.length then
          bestFuzzy text searchQuery.data fieldWeight options
            (splitByPred Char.isWhitespace searchText.data)
        else none

/-- The body of `calculateFieldStats`, parametrized by the records actually
scanned: accumulate total length and count of the non-empty string values at
the path, derive the average, combine the name-based base weight with the
length-based weight. -/
def fieldStatsOf (sample : List Value) (fieldPath : String) : ℚ × ℚ :=
  let acc := sample.foldl
    (fun (tc : Nat × Nat) item =>
      match getNestedValue item fieldPath with
      | .str s => if 0 < s.length then (tc.1 + s.length, tc.2 + 1) else tc
      | _ => tc)
    (0, 0)
  let avgLength : ℚ := if 0 < acc.2 then (acc.1 : ℚ) / (acc.2 : ℚ) else 0
  let fieldName := lowerStr (String.mk ((splitOnChar '.' fieldPath.data).getLastD []))
  let baseWeight : ℚ :=
    if (["title", "name", "heading"] : List String).contains fieldName then 5
    else if (["description", "summary", "subtitle"] : List String).contains fieldName then 3
    else if (["content", "body", "text"] : List String).contains fieldName then 1
    else 1
  let lengthWeight : ℚ :=
    if avgLength < 50 then 2
    else if avgLength < 100 then 3 / 2
    else if avgLength < 300 then 6 / 5
    else 1
  (avgLength, baseWeight * lengthWeight)

/-- The baseline engine's `calculateFieldStats`: the scan runs over the
whole collection (`for (const item of data)`). -/
def calculateFieldStats (data : List Value) (fieldPath : String) : ℚ × ℚ :=
  fieldStatsOf data fieldPath

/-- The optimized engine's `calculateFieldStats`: the scan runs over
`sampleSize = min(data.length, 100)` leading records only. -/
def calculateFieldStatsOpt (data : List Value) (fieldPath : String) : ℚ × ℚ :=
  fieldStatsOf (data.take 100) fieldPath

/-- The caller-facing options record (all fields optional, defaulted inside
`search` as in `DEFAULT_SEARCH_OPTIONS`). -/
structure SearchOptions where
  fields : Option (List String) := none
  fieldWeights : List (String × ℚ) := []
  fuzzyThreshold : Option ℚ := none
  minFuzzyLength : Option Nat := none
  limit : Option Nat := none
  caseSensitive : Option Bool := none

/-- One returned result: the record, its total score, its match list. -/
structure SearchResult where
  item : Value
  score : ℚ
  matchArr : List SearchMatch

/-- Sum of the matched values' lengths, the ranking tie-breaker. -/
def totalMatchedLength (r : SearchResult) : Nat :=
  (r.matchArr.map (fun m => m.value.length)).sum

/-- The ranking comparator as a "may be placed at or before" relation:
higher score first; on equal scores, smaller summed matched-text length
first; full ties keep input order (stability). -/
def resultBefore (a b : SearchResult) : Bool :=
  decide (b.score < a.score) ||
    (decide (a.score = b.score) && decide (totalMatchedLength a ≤ totalMatchedLength b))

/-- Stable insertion into a sorted result list. -/
def insertResult (a : SearchResult) : List SearchResult → List SearchResult
  | [] => [a]
  | b :: l => if resultBefore a b then a :: b :: l else b :: insertResult a l

/-- The stable sort by the engine's comparator, modelling the (stable) JS
`Array.prototype.sort` call. -/
def sortResults : List SearchResult → List SearchResult
  | [] => []
  | a :: l => insertResult a (sortResults l)

/-- The per-record inner loop shared by both engines: for every field of the
resolved field set, extract the text (skipping falsy values), resolve the
weight (`fieldWeights[field] ?? fieldStats.get(field)?.weight ?? 1`), run the
matcher, tag and collect its match and add its score.  A truthy non-string
extracted value reaches `text.toLowerCase()` in JS and raises; that escape is
the `none` outcome. -/
def scoreItem (searchFields : List String) (fieldWeights : List (String × ℚ))
    (fieldStats : List (String × (ℚ × ℚ))) (searchQuery : String)
    (opts : MatchOptions) (item : Value) : Option (List SearchMatch × ℚ) :=
  searchFields.foldlM
    (fun (acc : List SearchMatch × ℚ) field =>
      let textV := getNestedValue item field
      if jsFalsy textV then some acc
      else
        match textV with
        | .str s =>
          let defaultWeight : ℚ :=
            match fieldWeights.lookup field, fieldStats.lookup field with
            | some w, _ => w
            | none, some st => st.2
            | none, none => 1
          match calculateFieldScore s searchQuery defaultWeight opts with
          | some m => some (acc.1 ++ [{ m with field := field }], acc.2 + m.score)
          | none => some acc
        | _ => none)
    ([], 0)

/-- The baseline `search` (`src/index.ts`): empty trimmed query passes every
record through with score 0; otherwise resolve options, fields and field
statistics (over the whole collection), score every record, keep those with
at least one match, sort, and truncate to `limit` when it is non-zero. -/
def search (data : List Value) (query : String) (options : SearchOptions) :
    Option (List SearchResult) :=
  if jsTrim query.data = [] then
    some (data.map (fun item => { item := item, score := 0, matchArr := [] }))
  else
    let fieldWeights := options.fieldWeights
    let fuzzyThreshold := options.fuzzyThreshold.getD (7 / 10)
    let minFuzzyLength := options.minFuzzyLength.getD 3
    let limit := options.limit.getD 100
    let caseSensitive := options.caseSensitive.getD false
    let searchQuery := String.mk (jsTrim query.data)
    let mOpts : MatchOptions :=
      { fuzzyThreshold := fuzzyThreshold, minFuzzyLength := minFuzzyLength
        caseSensitive := caseSensitive }
    let searchFields :=
      match options.fields with
      | some fs => fs
      | none =>
        match data with
        | [] => []
        | item :: _ => detectStringFields 3 item ""
    let fieldStats := searchFields.map (fun f => (f, calculateFieldStats data f))
    match data.mapM (fun item =>
        (scoreItem searchFields fieldWeights fieldStats searchQuery mOpts item).map
          (fun r => (item, r))) with
    | none => none
    | some scored =>
      let results := scored.filterMap (fun ir =>
        match ir.2.1 with
        | [] => none
        | _ => some ({ item := ir.1, score := ir.2.2, matchArr := ir.2.1 } : SearchResult))
      some (if limit ≠ 0 then (sortResults results).take limit else sortResults results)

/-- The cached field statistics of the optimized engine for one collection
identity: the `fieldStatsCache` WeakMap slot. -/
abbrev FieldStatsMap := List (String × (ℚ × ℚ))

/-- The scan loop of the optimized engine: falsy records are skipped (without
reaching the loop-bottom cutoff check), matching records are appended, and
the scan stops as soon as `maxResults` results have been collected. -/
def collectResults (searchFields : List String) (fieldWeights : List (String × ℚ))
    (fieldStats : FieldStatsMap) (searchQuery : String) (opts : MatchOptions)
    (maxResults : Nat) : List Value → List SearchResult → Option (List SearchResult)
  | [], results => some results
  | item :: rest, results =>
    if jsFalsy item then
      collectResults searchFields fieldWeights fieldStats searchQuery opts maxResults rest results
    else
      match scoreItem searchFields fieldWeights fieldStats searchQuery opts item with
      | none => none
      | some scored =>
        let results' :=
          match scored.1 with
          | [] => results
          | _ => results ++ [{ item := item, score := scored.2, matchArr := scored.1 }]
        if maxResults ≤ results'.length then some results'
        else collectResults searchFields fieldWeights fieldStats searchQuery opts maxResults rest results'

/-- The optimized `search`: like the baseline, but field statistics are
reused from the collection's cache slot when present (and stored afterwards),
statistics sample only the first 100 records, and the scan stops after
collecting `limit * 3` results (`data.length` when the limit is disabled).
Returns the results paired with the new cache state. -/
def searchOpt (cache : Option FieldStatsMap) (data : List Value) (query : String)
    (options : SearchOptions) : Option (List SearchResult) × Option FieldStatsMap :=
  if jsTrim query.data = [] then
    (some (data.map (fun item => { item := item, score := 0, matchArr := [] })), cache)
  else
    let fieldWeights := options.fieldWeights
    let fuzzyThreshold := options.fuzzyThreshold.getD (7 / 10)
    let minFuzzyLength := options.minFuzzyLength.getD 3
    let limit := options.limit.getD 100
    let caseSensitive := options.caseSensitive.getD false
    let searchQuery := String.mk (jsTrim query.data)
    let mOpts : MatchOptions :=
      { fuzzyThreshold := fuzzyThreshold, minFuzzyLength := minFuzzyLength
        caseSensitive := caseSensitive }
    let searchFields :=
      match options.fields with
      | some fs => fs
      | none =>
        match data with
        | [] => []
        | item :: _ => detectStringFields 3 item ""
    let fieldStats :=
      match cache with
      | some m => m
      | none => searchFields.map (fun f => (f, calculateFieldStatsOpt data f))
    let maxResults := if limit ≠ 0 then limit * 3 else data.length
    match collectResults searchFields fieldWeights fieldStats searchQuery mOpts maxResults data [] with
    | none => (none, some fieldStats)
    | some results =>
      (some (if limit ≠ 0 then (sortResults results).take limit else sortResults results),
        some fieldStats)

/-- The textbook Levenshtein recursion, the specification the row-based
dynamic program is proved against. -/
def levRec : List Char → List Char → Nat
  | [], ys => ys.length
  | _ :: xs, [] => xs.length + 1
  | x :: xs, y :: ys =>
    min (levRec xs (y :: ys) + 1)
      (min (levRec (x :: xs) ys + 1) (levRec xs ys + (if x = y then 0 else 1)))
termination_by xs ys => xs.length + ys.length
decreasing_by all_goals (simp [List.length_cons]; try omega)

/-- The edit relation: `Edits xs ys n` states that `xs` can be transformed into `ys` by an alignment using
exactly `n` single-character operations — substitutions (of a genuinely
different character), deletions and insertions; matching characters are kept
for free.  The Levenshtein distance is the least such `n`. -/
inductive Edits : List Char → List Char → Nat → Prop where
  | nil : Edits [] [] 0
  | keep (a : Char) {xs ys : List Char} {n : Nat} :
      Edits xs ys n → Edits (a :: xs) (a :: ys) n
  | subst {a b : Char} {xs ys : List Char} {n : Nat} :
      a ≠ b → Edits xs ys n → Edits (a :: xs) (b :: ys) (n + 1)
  | del (a : Char) {xs ys : List Char} {n : Nat} :
      Edits xs ys n → Edits (a :: xs) ys (n + 1)
  | ins (b : Char) {xs ys : List Char} {n : Nat} :
      Edits xs ys n → Edits xs (b :: ys) (n + 1)

/-- The intended content of a dynamic-program row: walking the remaining
characters `cs` of `str1` with accumulator `q` (the already-consumed
characters, reversed), each cell is `levRec` of the reversed consumed
characters against `pRev`, the reversed processed part of `str2`. -/
def rowSpec (pRev : List Char) : List Char → List Char → List Nat
  | q, [] => [levRec q pRev]
  | q, c :: cs => levRec q pRev :: rowSpec pRev (c :: q) cs

/-- Spec-side view of the statistics scan: the lengths of the non-empty
string values found at the path. -/
def validFieldLengths (sample : List Value) (fieldPath : String) : List Nat :=
  sample.filterMap (fun item =>
    match getNestedValue item fieldPath with
    | .str s => if 0 < s.length then some s.length else none
    | _ => none)

/-- Spec-side mean: 0 when no record has a value at the path. -/
def avgOf (lens : List Nat) : ℚ :=
  if lens = [] then 0 else ((lens.sum : Nat) : ℚ) / ((lens.length : Nat) : ℚ)

/-- Spec-side base weight by (lower-cased) last path segment. -/
def baseWeightOf (fieldName : String) : ℚ :=
  if fieldName = "title" ∨ fieldName = "name" ∨ fieldName = "heading" then 5
  else if fieldName = "description" ∨ fieldName = "summary" ∨ fieldName = "subtitle" then 3
  else 1

/-- Spec-side length weight by average-length bucket. -/
def lengthWeightOf (avg : ℚ) : ℚ :=
  if avg < 50 then 2
  else if avg < 100 then 3 / 2
  else if avg < 300 then 6 / 5
  else 1

/-- Spec-side last path segment, lower-cased
(`fieldPath.split(".").pop()?.toLowerCase() ?? ""`). -/
def lastSegmentLower (fieldPath : String) : String :=
  lowerStr (String.mk ((splitOnChar '.' fieldPath.data).getLastD []))

/-- The default matcher options (`DEFAULT_SEARCH_OPTIONS`). -/
def defaultMatchOptions : MatchOptions :=
  { fuzzyThreshold := 7 / 10, minFuzzyLength := 3, caseSensitive := false }

/-- C1 counterexample data: a low-scoring name (substring hit far from the
start of a 12-character value). -/
def c1Weak : String := "bbbbbbbbbbbq"

/-- C1 counterexample data: a high-scoring name (exact-start hit). -/
def c1Strong : String := "qzz"

/-- C1 counterexample collection: three weak records before one strong
record. -/
def c1Data : List Value :=
  [Value.obj [("name", Value.str c1Weak)], Value.obj [("name", Value.str c1Weak)],
   Value.obj [("name", Value.str c1Weak)], Value.obj [("name", Value.str c1Strong)]]

/-- C1 options with `limit: 1`. -/
def c1Opts1 : SearchOptions :=
  { fields := some ["name"], fieldWeights := [("name", 1)], limit := some 1 }

/-- C1 options with the limit disabled (`limit: 0`). -/
def c1Opts0 : SearchOptions :=
  { fields := some ["name"], fieldWeights := [("name", 1)], limit := some 0 }

/-- C2 counterexample collection. -/
def c2Data : List Value :=
  [Value.obj [("title", Value.str "apple pie"), ("other", Value.str "zzz")]]

/-- C2 first call: search only the field `other`. -/
def c2Opts1 : SearchOptions := { fields := some ["other"] }

/-- C2 second call: search only the field `title`. -/
def c2Opts2 : SearchOptions := { fields := some ["title"] }

/-- C4 counterexample: a 102-character string at index 100. -/
def c4Long : String := String.mk (List.replicate 102 'y')

/-- C4 counterexample collection: 100 one-character values followed by one
102-character value. -/
def c4Data : List Value :=
  (List.replicate 100 (Value.obj [("a", Value.str "x")])) ++ [Value.obj [("a", Value.str c4Long)]]

/-- C3 counterexample record: a numeric value at the path. -/
def c3Obj : Value := Value.obj [("a", Value.num 42)]

/-- Matcher options of concrete scenario 3 (fuzzy threshold 0.6). -/
def c6Opts : MatchOptions :=
  { fuzzyThreshold := 3 / 5, minFuzzyLength := 3, caseSensitive := false }

/-- The fuzzy match produced for scenario 3: the word `multiple` at
similarity 3/4, text length 35, so score `1 * 3/4 * (2 + 10/7) = 18/7`. -/
def c6m : SearchMatch :=
  { field := "", value := "this has multiple words for testing", score := 18 / 7
    type := .fuzzy, position := none }

/-- The substring match produced for text `xq`, query `q`, weight 1: position
1, score `max (1 * (10 + 50 - 1/10)) 1 = 599/10`. -/
def c7m : SearchMatch :=
  { field := "", value := "xq", score := 599 / 10, type := .exactContain, position := some 1 }

theorem levRec_nil_left (ys : List Char) : levRec [] ys = ys.length := by
  simp [levRec]

theorem levRec_nil_right (xs : List Char) : levRec xs [] = xs.length := by
  cases xs <;> simp [levRec]

theorem levRec_cons_cons (x y : Char) (xs ys : List Char) :
    levRec (x :: xs) (y :: ys) =
      min (levRec xs (y :: ys) + 1)
        (min (levRec (x :: xs) ys + 1) (levRec xs ys + (if x = y then 0 else 1))) := by
  simp [levRec]

theorem edits_all_ins (ys : List Char) : Edits [] ys ys.length := by
  induction ys with
  | nil => exact .nil
  | cons y ys ih => exact .ins y ih

theorem edits_all_del (xs : List Char) : Edits xs [] xs.length := by
  induction xs with
  | nil => exact .nil
  | cons x xs ih => exact .del x ih

theorem edits_levRec (xs : List Char) : ∀ ys, Edits xs ys (levRec xs ys) := by
  induction xs with
  | nil =>
    intro ys
    rw [levRec_nil_left]
    exact edits_all_ins ys
  | cons x xs ihx =>
    intro ys
    induction ys with
    | nil =>
      rw [levRec_nil_right]
      exact edits_all_del (x :: xs)
    | cons y ys ihy =>
      rw [levRec_cons_cons]
      have da : Edits (x :: xs) (y :: ys) (levRec xs (y :: ys) + 1) := .del x (ihx (y :: ys))
      have db : Edits (x :: xs) (y :: ys) (levRec (x :: xs) ys + 1) := .ins y ihy
      have dc : Edits (x :: xs) (y :: ys) (levRec xs ys + (if x = y then 0 else 1)) := by
        rcases eq_or_ne x y with h | h
        · subst h
          simpa using Edits.keep x (ihx ys)
        · simpa [h] using Edits.subst h (ihx ys)
      set A := levRec xs (y :: ys) + 1 with hA
      set B := levRec (x :: xs) ys + 1 with hB
      set C := levRec xs ys + (if x = y then 0 else 1) with hC
      have hmin : min A (min B C) = A ∨ min A (min B C) = B ∨ min A (min B C) = C := by
        omega
      rcases hmin with h | h | h <;> rw [h]
      · exact da
      · exact db
      · exact dc

theorem levRec_le_of_edits {xs ys : List Char} {n : Nat} (h : Edits xs ys n) :
    levRec xs ys ≤ n := by
  induction h with
  | nil => simp [levRec]
  | keep a h ih =>
    rw [levRec_cons_cons]
    have hc : (if a = a then (0 : Nat) else 1) = 0 := by simp
    rw [hc]
    omega
  | subst hne h ih =>
    rw [levRec_cons_cons]
    rename_i a b xs ys n
    simp only [if_neg hne]
    omega
  | del a h ih =>
    rename_i xs ys n
    cases ys with
    | nil =>
      rw [levRec_nil_right] at ih ⊢
      simp only [List.length_cons]
      omega
    | cons y ys =>
      rw [levRec_cons_cons]
      omega
  | ins b h ih =>
    rename_i xs ys n
    cases xs with
    | nil =>
      rw [levRec_nil_left] at ih ⊢
      simp only [List.length_cons]
      omega
    | cons x xs =>
      rw [levRec_cons_cons]
      omega

theorem edits_append {xs ys : List Char} {n : Nat} (h : Edits xs ys n) :
    ∀ {as bs : List Char} {m : Nat}, Edits as bs m → Edits (xs ++ as) (ys ++ bs) (n + m) := by
  induction h with
  | nil =>
    intro as bs m hm
    simpa using hm
  | keep a h ih =>
    intro as bs m hm
    exact .keep a (ih hm)
  | subst hne h ih =>
    intro as bs m hm
    rw [Nat.add_right_comm]
    exact .subst hne (ih hm)
  | del a h ih =>
    intro as bs m hm
    rw [Nat.add_right_comm]
    exact .del a (ih hm)
  | ins b h ih =>
    intro as bs m hm
    rw [Nat.add_right_comm]
    exact .ins b (ih hm)

theorem edits_reverse {xs ys : List Char} {n : Nat} (h : Edits xs ys n) :
    Edits xs.reverse ys.reverse n := by
  induction h with
  | nil => simpa using Edits.nil
  | keep a h ih =>
    simpa [List.reverse_cons] using edits_append ih (Edits.keep a Edits.nil)
  | subst hne h ih =>
    simpa [List.reverse_cons] using edits_append ih (Edits.subst hne Edits.nil)
  | del a h ih =>
    simpa [List.reverse_cons] using edits_append ih (Edits.del a Edits.nil)
  | ins b h ih =>
    simpa [List.reverse_cons] using edits_append ih (Edits.ins b Edits.nil)

theorem edits_symm {xs ys : List Char} {n : Nat} (h : Edits xs ys n) : Edits ys xs n := by
  induction h with
  | nil => exact .nil
  | keep a h ih => exact .keep a ih
  | subst hne h ih => exact .subst (Ne.symm hne) ih
  | del a h ih => exact .ins a ih
  | ins b h ih => exact .del b ih

theorem levRec_symm (xs ys : List Char) : levRec xs ys = levRec ys xs :=
  Nat.le_antisymm (levRec_le_of_edits (edits_symm (edits_levRec ys xs)))
    (levRec_le_of_edits (edits_symm (edits_levRec xs ys)))

theorem levRec_le_max (xs : List Char) : ∀ ys, levRec xs ys ≤ max xs.length ys.length := by
  induction xs with
  | nil =>
    intro ys
    rw [levRec_nil_left]
    omega
  | cons x xs ih =>
    intro ys
    cases ys with
    | nil =>
      rw [levRec_nil_right]
      simp
    | cons y ys =>
      rw [levRec_cons_cons]
      have h2 := ih ys
      have hcost : (if x = y then 0 else 1) ≤ 1 := by
        split <;> omega
      simp only [List.length_cons] at h2 ⊢
      omega

theorem rowSpec_headD (pRev q cs : List Char) (d : Nat) :
    (rowSpec pRev q cs).headD d = levRec q pRev := by
  cases cs <;> rfl

theorem rowSpec_cons_tail (pRev q cs : List Char) :
    rowSpec pRev q cs = levRec q pRev :: (rowSpec pRev q cs).tail := by
  cases cs <;> rfl

theorem levRowAux_rowSpec (c2 : Char) (cs : List Char) :
    ∀ q pRev, levRowAux c2 cs (levRec q (c2 :: pRev)) (rowSpec pRev q cs) =
      (rowSpec (c2 :: pRev) q cs).tail := by
  induction cs with
  | nil =>
    intro q pRev
    rfl
  | cons c1 cs ih =>
    intro q pRev
    simp only [rowSpec, levRowAux, rowSpec_headD]
    have hv : min (levRec (c1 :: q) pRev + 1)
        (min (levRec q (c2 :: pRev) + 1) (levRec q pRev + (if c1 = c2 then 0 else 1))) =
        levRec (c1 :: q) (c2 :: pRev) := by
      rw [levRec_cons_cons]
      generalize (if c1 = c2 then (0 : Nat) else 1) = cost
      omega
    rw [hv, ih (c1 :: q) pRev]
    exact (rowSpec_cons_tail (c2 :: pRev) (c1 :: q) cs).symm

theorem levRows_rowSpec (s1 : List Char) (s2rest : List Char) :
    ∀ pRev, levRows s1 s2rest (pRev.length + 1) (rowSpec pRev [] s1) =
      rowSpec (s2rest.reverse ++ pRev) [] s1 := by
  induction s2rest with
  | nil =>
    intro pRev
    simp [levRows]
  | cons c2 rest ih =>
    intro pRev
    have hstep : levRowStep s1 (rowSpec pRev [] s1) c2 (pRev.length + 1) =
        rowSpec (c2 :: pRev) [] s1 := by
      unfold levRowStep
      have h0 : levRec ([] : List Char) (c2 :: pRev) = pRev.length + 1 := by
        rw [levRec_nil_left]
        simp
      rw [← h0, levRowAux_rowSpec]
      exact (rowSpec_cons_tail (c2 :: pRev) [] s1).symm
    show levRows s1 rest (pRev.length + 1 + 1)
      (levRowStep s1 (rowSpec pRev [] s1) c2 (pRev.length + 1)) = _
    rw [hstep]
    have h := ih (c2 :: pRev)
    simp only [List.length_cons] at h
    rw [h]
    simp [List.reverse_cons, List.append_assoc]

theorem rowSpec_range (cs : List Char) :
    ∀ q : List Char, rowSpec [] q cs = List.range' q.length (cs.length + 1) := by
  induction cs with
  | nil =>
    intro q
    simp [rowSpec, levRec_nil_right, List.range']
  | cons c cs ih =>
    intro q
    simp only [rowSpec, levRec_nil_right]
    rw [ih (c :: q)]
    simp [List.range', List.length_cons]

theorem rowSpec_getD (pRev : List Char) (cs : List Char) (d : Nat) :
    ∀ q, (rowSpec pRev q cs).getD cs.length d = levRec (cs.reverse ++ q) pRev := by
  induction cs with
  | nil =>
    intro q
    simp [rowSpec]
  | cons c cs ih =>
    intro q
    simp only [rowSpec, List.length_cons, List.getD_cons_succ]
    rw [ih (c :: q)]
    simp [List.reverse_cons, List.append_assoc]

theorem lev_eq_levRec (s1 s2 : List Char) :
    levenshteinDistance s1 s2 = levRec s1.reverse s2.reverse := by
  unfold levenshteinDistance
  rw [List.range_eq_range']
  have hr := rowSpec_range s1 []
  simp only [List.length_nil] at hr
  rw [← hr]
  have h := levRows_rowSpec s1 s2 []
  simp only [List.length_nil, List.append_nil] at h
  rw [h]
  have hg := rowSpec_getD s2.reverse s1 0 []
  simp only [List.append_nil] at hg
  exact hg

theorem levOpt_eq (s1 s2 : List Char) :
    levenshteinDistanceOpt s1 s2 = levenshteinDistance s1 s2 := by
  unfold levenshteinDistanceOpt
  split
  · show levenshteinDistance s2 s1 = levenshteinDistance s1 s2
    rw [lev_eq_levRec, lev_eq_levRec, levRec_symm]
  · rfl

theorem edits_lev (s1 s2 : List Char) : Edits s1 s2 (levenshteinDistance s1 s2) := by
  rw [lev_eq_levRec]
  have h := edits_reverse (edits_levRec s1.reverse s2.reverse)
  simpa using h

theorem lev_le_of_edits {s1 s2 : List Char} {n : Nat} (h : Edits s1 s2 n) :
    levenshteinDistance s1 s2 ≤ n := by
  rw [lev_eq_levRec]
  exact levRec_le_of_edits (edits_reverse h)

theorem lev_le_max (s1 s2 : List Char) :
    levenshteinDistance s1 s2 ≤ max s1.length s2.length := by
  rw [lev_eq_levRec]
  have h := levRec_le_max s1.reverse s2.reverse
  simpa using h

/-- C5: `levenshteinDistance(a, b)` is the minimum number of single-character
insertions, deletions and substitutions transforming `a` into `b` (a
non-negative integer): the distance is attained by some edit alignment and is
a lower bound for every edit alignment; when either string is empty it is the
length of the other; and the space-optimized two-row implementation agrees
with the full-matrix implementation on all inputs. -/
theorem c5_levenshtein_correct (a b : List Char) :
    Edits a b (levenshteinDistance a b) ∧
    (∀ n, Edits a b n → levenshteinDistance a b ≤ n) ∧
    levenshteinDistanceOpt a b = levenshteinDistance a b ∧
    levenshteinDistance [] b = b.length ∧
    levenshteinDistance a [] = a.length := by
  refine ⟨edits_lev a b, fun n h => lev_le_of_edits h, levOpt_eq a b, ?_, ?_⟩
  · rw [lev_eq_levRec]
    simp [levRec_nil_left]
  · rw [lev_eq_levRec]
    simp [levRec_nil_right]

theorem indexOfSub_spec (needle : List Char) :
    ∀ (hay : List Char) (p : Nat), indexOfSub needle hay = some p →
      needle.isPrefixOf (hay.drop p) ∧ ∀ i < p, ¬ needle.isPrefixOf (hay.drop i) := by
  intro hay
  induction hay with
  | nil =>
    intro p h
    simp only [indexOfSub] at h
    split at h
    · cases h
      constructor
      · assumption
      · intro i hi
        omega
    · cases h
  | cons c t ih =>
    intro p h
    simp only [indexOfSub] at h
    split at h
    · cases h
      constructor
      · assumption
      · intro i hi
        omega
    · rename_i hnp
      cases hq : indexOfSub needle t with
      | none =>
        rw [hq] at h
        cases h
      | some q =>
        rw [hq] at h
        simp only [Option.map_some'] at h
        cases h
        obtain ⟨h1, h2⟩ := ih q hq
        constructor
        · simp only [List.drop_succ_cons]
          exact h1
        · intro i hi
          cases i with
          | zero =>
            simp only [List.drop_zero]
            exact hnp
          | succ j =>
            simp only [List.drop_succ_cons]
            exact h2 j (by omega)

theorem indexOfSub_pos {needle hay : List Char} {p : Nat}
    (h : indexOfSub needle hay = some p) (hn : ¬ needle.isPrefixOf hay) : 1 ≤ p := by
  obtain ⟨h1, h2⟩ := indexOfSub_spec needle hay p h
  cases p with
  | zero =>
    simp only [List.drop_zero] at h1
    exact absurd h1 hn
  | succ q => omega

theorem normalized_length (cs : Bool) (s : String) :
    (normalized cs s).length = s.length := by
  cases cs
  · show (String.mk (s.data.map Char.toLower)).length = s.length
    have hmk : (String.mk (s.data.map Char.toLower)).length = (s.data.map Char.toLower).length := rfl
    rw [hmk, List.length_map]
    rfl
  · rfl

theorem betterFuzzy_none_iff (b c : Option SearchMatch) :
    betterFuzzy b c = none ↔ b = none ∧ c = none := by
  cases b <;> cases c <;> simp [betterFuzzy]
  split <;> simp

theorem betterFuzzy_some {b c : Option SearchMatch} {m : SearchMatch}
    (h : betterFuzzy b c = some m) :
    (b = some m ∨ c = some m) ∧
    (∀ x, b = some x → x.score ≤ m.score) ∧
    (∀ x, c = some x → x.score ≤ m.score) := by
  cases b with
  | none =>
    cases c with
    | none => simp [betterFuzzy] at h
    | some cc =>
      simp only [betterFuzzy] at h
      cases h
      refine ⟨Or.inr rfl, ?_, ?_⟩
      · intro x hx
        cases hx
      · intro x hx
        cases hx
        exact le_refl _
  | some bb =>
    cases c with
    | none =>
      simp only [betterFuzzy] at h
      cases h
      refine ⟨Or.inl rfl, ?_, ?_⟩
      · intro x hx
        cases hx
        exact le_refl _
      · intro x hx
        cases hx
    | some cc =>
      simp only [betterFuzzy] at h
      split at h
      · cases h
        refine ⟨Or.inr rfl, ?_, ?_⟩
        · intro x hx
          cases hx
          exact le_of_lt (by assumption)
        · intro x hx
          cases hx
          exact le_refl _
      · cases h
        refine ⟨Or.inl rfl, ?_, ?_⟩
        · intro x hx
          cases hx
          exact le_refl _
        · intro x hx
          cases hx
          exact le_of_not_lt (by assumption)

theorem fuzzyCandidate_some {text : String} {sq : List Char} {w : ℚ} {o : MatchOptions}
    {word : List Char} {x : SearchMatch}
    (h : fuzzyCandidate text sq w o word = some x) :
    3 ≤ word.length ∧ o.fuzzyThreshold ≤ fuzzySimilarity word sq ∧
    x = { field := "", value := text, score := fuzzyScore text sq word w
          type := .fuzzy, position := none } := by
  unfold fuzzyCandidate at h
  split at h
  · split at h
    · cases h
      exact ⟨by assumption, by assumption, rfl⟩
    · cases h
  · cases h

theorem fuzzyCandidate_of_qualifies {text : String} {sq : List Char} {w : ℚ} {o : MatchOptions}
    {word : List Char} (h3 : 3 ≤ word.length)
    (hth : o.fuzzyThreshold ≤ fuzzySimilarity word sq) :
    fuzzyCandidate text sq w o word =
      some { field := "", value := text, score := fuzzyScore text sq word w
             type := .fuzzy, position := none } := by
  unfold fuzzyCandidate
  rw [if_pos h3, if_pos hth]

theorem bestFuzzy_fold (text : String) (sq : List Char) (w : ℚ) (o : MatchOptions)
    (words : List (List Char)) :
    ∀ acc : Option SearchMatch,
      (words.foldl (fun best word => betterFuzzy best (fuzzyCandidate text sq w o word)) acc = none ↔
        acc = none ∧ ∀ word ∈ words, fuzzyCandidate text sq w o word = none) ∧
      (∀ m, words.foldl (fun best word => betterFuzzy best (fuzzyCandidate text sq w o word)) acc = some m →
        (acc = some m ∨ ∃ word ∈ words, fuzzyCandidate text sq w o word = some m) ∧
        (∀ x, acc = some x → x.score ≤ m.score) ∧
        (∀ word ∈ words, ∀ x, fuzzyCandidate text sq w o word = some x → x.score ≤ m.score)) := by
  induction words with
  | nil =>
    intro acc
    refine ⟨by simp, ?_⟩
    intro m h
    simp only [List.foldl_nil] at h
    subst h
    refine ⟨Or.inl rfl, ?_, by simp⟩
    intro x hx
    cases hx
    exact le_refl _
  | cons wd words ih =>
    intro acc
    simp only [List.foldl_cons]
    obtain ⟨ih1, ih2⟩ := ih (betterFuzzy acc (fuzzyCandidate text sq w o wd))
    constructor
    · rw [ih1, betterFuzzy_none_iff]
      constructor
      · rintro ⟨⟨ha, hw⟩, hrest⟩
        refine ⟨ha, ?_⟩
        intro word hword
        rcases List.mem_cons.mp hword with rfl | hmem
        · exact hw
        · exact hrest word hmem
      · rintro ⟨ha, hall⟩
        exact ⟨⟨ha, hall wd (List.mem_cons_self wd words)⟩,
          fun word hmem => hall word (List.mem_cons_of_mem wd hmem)⟩
    · intro m h
      obtain ⟨hsrc, hacc, hwords⟩ := ih2 m h
      have hbound : ∀ y, betterFuzzy acc (fuzzyCandidate text sq w o wd) = some y →
          y.score ≤ m.score := hacc
      constructor
      · rcases hsrc with hbf | ⟨word, hmem, hcand⟩
        · rcases (betterFuzzy_some hbf).1 with ha | hc
          · exact Or.inl ha
          · exact Or.inr ⟨wd, List.mem_cons_self wd words, hc⟩
        · exact Or.inr ⟨word, List.mem_cons_of_mem wd hmem, hcand⟩
      constructor
      · intro x hx
        cases hbf : betterFuzzy acc (fuzzyCandidate text sq w o wd) with
        | none =>
          rw [betterFuzzy_none_iff] at hbf
          rw [hbf.1] at hx
          cases hx
        | some y =>
          exact le_trans ((betterFuzzy_some hbf).2.1 x hx) (hbound y hbf)
      · intro word hword x hx
        rcases List.mem_cons.mp hword with rfl | hmem
        · cases hbf : betterFuzzy acc (fuzzyCandidate text sq w o word) with
          | none =>
            rw [betterFuzzy_none_iff] at hbf
            rw [hbf.2] at hx
            cases hx
          | some y =>
            exact le_trans ((betterFuzzy_some hbf).2.2 x hx) (hbound y hbf)
        · exact hwords word hmem x hx

theorem bestFuzzy_some_shape {text : String} {sq : List Char} {w : ℚ} {o : MatchOptions}
    {words : List (List Char)} {m : SearchMatch}
    (h : bestFuzzy text sq w o words = some m) :
    m.type = .fuzzy ∧ m.position = none ∧
    ∃ word ∈ words, fuzzyCandidate text sq w o word = some m := by
  unfold bestFuzzy at h
  obtain ⟨hsrc, -, -⟩ := (bestFuzzy_fold text sq w o words none).2 m h
  rcases hsrc with hnone | ⟨word, hmem, hcand⟩
  · cases hnone
  · obtain ⟨-, -, hx⟩ := fuzzyCandidate_some hcand
    subst hx
    exact ⟨rfl, rfl, word, hmem, hcand⟩

theorem fuzzySimilarity_bounds (word q : List Char) (h3 : 3 ≤ word.length) :
    0 ≤ fuzzySimilarity word q ∧ fuzzySimilarity word q ≤ 1 := by
  unfold fuzzySimilarity
  have hmx : 3 ≤ max word.length q.length := le_trans h3 (le_max_left _ _)
  have hpos : (0 : ℚ) < ((max word.length q.length : Nat) : ℚ) := by
    have : (0 : Nat) < max word.length q.length := by omega
    exact_mod_cast this
  have hd : levenshteinDistance word q ≤ max word.length q.length := lev_le_max word q
  have hdq : ((levenshteinDistance word q : Nat) : ℚ) ≤ ((max word.length q.length : Nat) : ℚ) := by
    exact_mod_cast hd
  have hd0 : (0 : ℚ) ≤ ((levenshteinDistance word q : Nat) : ℚ) := by positivity
  constructor
  · apply div_nonneg _ (le_of_lt hpos)
    linarith
  · rw [div_le_one hpos]
    linarith

theorem calculateFieldScore_shape {text query : String} {w : ℚ} {o : MatchOptions} {m : SearchMatch}
    (h : calculateFieldScore text query w o = some m) :
    text ≠ "" ∧ query ≠ "" ∧
    (((normalized o.caseSensitive query).data.isPrefixOf (normalized o.caseSensitive text).data = true ∧
        m = { field := "", value := text, score := w * 20, type := .exactStart, position := some 0 }) ∨
      (¬ (normalized o.caseSensitive query).data.isPrefixOf (normalized o.caseSensitive text).data = true ∧
        ∃ pos, indexOfSub (normalized o.caseSensitive query).data (normalized o.caseSensitive text).data = some pos ∧
          m = { field := "", value := text
                score := max (w * (10 + max 1 ((100 : ℚ) / (text.length : ℚ)) - (pos : ℚ) * (1 / 10))) w
                type := .exactContain, position := some pos }) ∨
      (¬ (normalized o.caseSensitive query).data.isPrefixOf (normalized o.caseSensitive text).data = true ∧
        indexOfSub (normalized o.caseSensitive query).data (normalized o.caseSensitive text).data = none ∧
        o.minFuzzyLength ≤ (normalized o.caseSensitive query).length ∧
        bestFuzzy text (normalized o.caseSensitive query).data w o
          (splitByPred Char.isWhitespace (normalized o.caseSensitive text).data) = some m)) := by
  unfold calculateFieldScore at h
  split at h
  · cases h
  · rename_i hne
    push_neg at hne
    refine ⟨hne.1, hne.2, ?_⟩
    simp only [] at h
    split at h
    · rename_i hpre
      cases h
      exact Or.inl ⟨hpre, rfl⟩
    · rename_i hnpre
      split at h
      · rename_i pos hidx
        cases h
        exact Or.inr (Or.inl ⟨hnpre, pos, hidx, rfl⟩)
      · rename_i hidx
        split at h
        · rename_i hlen
          exact Or.inr (Or.inr ⟨hnpre, hidx, hlen, h⟩)
        · cases h

/-- C8: for non-empty text and query whose normalization makes the text start
with the query, the matcher returns exactly the single exact-start (Prefix)
match with score `weight * 20` and position 0 — the substring and fuzzy rules
contribute nothing, so a field produces at most this one match and the three
classifications are mutually exclusive. -/
theorem c8_exact_start_priority (text query : String) (w : ℚ) (o : MatchOptions)
    (ht : text ≠ "") (hq : query ≠ "")
    (hpre : (normalized o.caseSensitive query).data.isPrefixOf
      (normalized o.caseSensitive text).data = true) :
    calculateFieldScore text query w o =
      some { field := "", value := text, score := w * 20, type := .exactStart, position := some 0 } ∧
    ∀ m, calculateFieldScore text query w o = some m →
      m = { field := "", value := text, score := w * 20, type := .exactStart, position := some 0 } := by
  have hne : ¬ (text = "" ∨ query = "") := by
    push_neg
    exact ⟨ht, hq⟩
  have hmain : calculateFieldScore text query w o =
      some { field := "", value := text, score := w * 20, type := .exactStart, position := some 0 } := by
    unfold calculateFieldScore
    simp only []
    rw [if_neg hne, if_pos hpre]
  refine ⟨hmain, ?_⟩
  intro m hm
  rw [hmain] at hm
  exact (Option.some.inj hm).symm

/-- C8 witness: `"Development Team"` with query `"develop"` (scenario 2)
produces exactly the Prefix match with score `1 * 20` at position 0. -/
theorem c8_exact_start_priority_witness :
    (("Development Team" : String) ≠ "" ∧ ("develop" : String) ≠ "" ∧
      (normalized defaultMatchOptions.caseSensitive "develop").data.isPrefixOf
        (normalized defaultMatchOptions.caseSensitive "Development Team").data = true) ∧
    calculateFieldScore "Development Team" "develop" 1 defaultMatchOptions =
      some { field := "", value := "Development Team", score := 1 * 20
             type := .exactStart, position := some 0 } :=
  ⟨⟨by decide, by decide, by decide⟩,
    (c8_exact_start_priority "Development Team" "develop" 1 defaultMatchOptions
      (by decide) (by decide) (by decide)).1⟩

/-- C7: every exact-contain (Substring) match carries the position of the
first occurrence of the normalized query in the normalized text, scores
exactly `max(weight * (10 + max(1, 100/len(text)) - position * 0.1), weight)`,
and therefore scores at least the field weight. -/
theorem c7_substring_score_spec (text query : String) (w : ℚ) (o : MatchOptions)
    (m : SearchMatch) (hw : 0 < w)
    (h : calculateFieldScore text query w o = some m) (ht : m.type = .exactContain) :
    ∃ pos, m.position = some pos ∧
      indexOfSub (normalized o.caseSensitive query).data (normalized o.caseSensitive text).data = some pos ∧
      (normalized o.caseSensitive query).data.isPrefixOf
        ((normalized o.caseSensitive text).data.drop pos) = true ∧
      (∀ i < pos, ¬ (normalized o.caseSensitive query).data.isPrefixOf
        ((normalized o.caseSensitive text).data.drop i) = true) ∧
      m.score = max (w * (10 + max 1 ((100 : ℚ) / (text.length : ℚ)) - (pos : ℚ) * (1 / 10))) w ∧
      w ≤ m.score := by
  obtain ⟨-, -, hcase⟩ := calculateFieldScore_shape h
  rcases hcase with ⟨hpre, rfl⟩ | ⟨hnpre, pos, hidx, rfl⟩ | ⟨hnpre, hidx, hlen, hbf⟩
  · simp at ht
  · obtain ⟨hp1, hp2⟩ := indexOfSub_spec _ _ _ hidx
    exact ⟨pos, rfl, hidx, hp1, hp2, rfl, le_max_right _ _⟩
  · obtain ⟨htype, -, -⟩ := bestFuzzy_some_shape hbf
    rw [ht] at htype
    simp at htype

/-- C7 witness: text `"xq"`, query `"q"`, weight 1 yields the Substring match
at position 1 with score `599/10 = max(1 * (10 + 50 - 0.1), 1) ≥ 1`. -/
theorem c7_substring_score_spec_witness :
    (0 : ℚ) < 1 ∧
    calculateFieldScore "xq" "q" 1 defaultMatchOptions = some c7m ∧
    c7m.type = .exactContain ∧
    (∃ pos, c7m.position = some pos ∧
      indexOfSub (normalized defaultMatchOptions.caseSensitive "q").data
        (normalized defaultMatchOptions.caseSensitive "xq").data = some pos ∧
      (normalized defaultMatchOptions.caseSensitive "q").data.isPrefixOf
        ((normalized defaultMatchOptions.caseSensitive "xq").data.drop pos) = true ∧
      (∀ i < pos, ¬ (normalized defaultMatchOptions.caseSensitive "q").data.isPrefixOf
        ((normalized defaultMatchOptions.caseSensitive "xq").data.drop i) = true) ∧
      c7m.score = max ((1 : ℚ) * (10 + max 1 ((100 : ℚ) / (("xq" : String).length : ℚ)) - (pos : ℚ) * (1 / 10))) 1 ∧
      (1 : ℚ) ≤ c7m.score) :=
  ⟨by norm_num, by decide, by decide,
    c7_substring_score_spec "xq" "q" 1 defaultMatchOptions c7m (by norm_num) (by decide) (by decide)⟩

/-- C10: the position field separates the three match kinds: a match is
exact-start iff its position is 0, exact-contain iff its position is some
index ≥ 1, and fuzzy iff it carries no position. -/
theorem c10_position_discipline (text query : String) (w : ℚ) (o : MatchOptions)
    (m : SearchMatch) (h : calculateFieldScore text query w o = some m) :
    (m.type = .exactStart ↔ m.position = some 0) ∧
    (m.type = .exactContain ↔ ∃ pos, m.position = some pos ∧ 1 ≤ pos) ∧
    (m.type = .fuzzy ↔ m.position = none) := by
  obtain ⟨-, -, hcase⟩ := calculateFieldScore_shape h
  rcases hcase with ⟨hpre, rfl⟩ | ⟨hnpre, pos, hidx, rfl⟩ | ⟨hnpre, hidx, hlen, hbf⟩
  · refine ⟨by simp, ?_, by simp⟩
    constructor
    · intro hx
      simp at hx
    · rintro ⟨pos, hp, hge⟩
      simp at hp
      omega
  · have hpos : 1 ≤ pos := indexOfSub_pos hidx hnpre
    refine ⟨?_, ?_, ?_⟩
    · constructor
      · intro hx
        simp at hx
      · intro hp
        simp at hp
        omega
    · constructor
      · intro _
        exact ⟨pos, by simp, hpos⟩
      · intro _
        simp
    · constructor
      · intro hx
        simp at hx
      · intro hp
        simp at hp
  · obtain ⟨htype, hposn, -⟩ := bestFuzzy_some_shape hbf
    refine ⟨?_, ?_, ?_⟩
    · constructor
      · intro hx
        rw [hx] at htype
        simp at htype
      · intro hx
        rw [hposn] at hx
        cases hx
    · constructor
      · intro hx
        rw [hx] at htype
        simp at htype
      · rintro ⟨pos, hp, -⟩
        rw [hposn] at hp
        cases hp
    · exact ⟨fun _ => hposn, fun _ => htype⟩

/-- C10 witness: the Substring match for text `"xq"`, query `"q"` has
position 1 (≥ 1), is not classified Prefix, and is not fuzzy. -/
theorem c10_position_discipline_witness :
    calculateFieldScore "xq" "q" 1 defaultMatchOptions = some c7m ∧
    ((c7m.type = .exactStart ↔ c7m.position = some 0) ∧
      (c7m.type = .exactContain ↔ ∃ pos, c7m.position = some pos ∧ 1 ≤ pos) ∧
      (c7m.type = .fuzzy ↔ c7m.position = none)) :=
  ⟨by decide, c10_position_discipline "xq" "q" 1 defaultMatchOptions c7m (by decide)⟩

/-- C6: a fuzzy Match arises only when the query reaches `minFuzzyLength` and
some whitespace-delimited word of length ≥ 3 of the normalized text reaches
the similarity threshold; every similarity of a word of length ≥ 3 lies in
[0, 1]; the reported score is `weight * similarity * (2 + max(1, 50/len(text)))`
for a best-scoring qualifying word (no qualifying word scores higher); and no
fuzzy Match exists when no word qualifies. -/
theorem c6_fuzzy_match_spec (text query : String) (w : ℚ) (o : MatchOptions) (hw : 0 < w) :
    (∀ m, calculateFieldScore text query w o = some m → m.type = .fuzzy →
      o.minFuzzyLength ≤ query.length ∧
      (∃ word ∈ splitByPred Char.isWhitespace (normalized o.caseSensitive text).data,
        3 ≤ word.length ∧
        o.fuzzyThreshold ≤ fuzzySimilarity word (normalized o.caseSensitive query).data ∧
        0 ≤ fuzzySimilarity word (normalized o.caseSensitive query).data ∧
        fuzzySimilarity word (normalized o.caseSensitive query).data ≤ 1 ∧
        m.score = fuzzyScore text (normalized o.caseSensitive query).data word w) ∧
      (∀ word ∈ splitByPred Char.isWhitespace (normalized o.caseSensitive text).data,
        3 ≤ word.length →
        o.fuzzyThreshold ≤ fuzzySimilarity word (normalized o.caseSensitive query).data →
        fuzzyScore text (normalized o.caseSensitive query).data word w ≤ m.score)) ∧
    (∀ word : List Char, 3 ≤ word.length →
      0 ≤ fuzzySimilarity word (normalized o.caseSensitive query).data ∧
      fuzzySimilarity word (normalized o.caseSensitive query).data ≤ 1) ∧
    (∀ m, calculateFieldScore text query w o = some m →
      (∀ word ∈ splitByPred Char.isWhitespace (normalized o.caseSensitive text).data,
        ¬ (3 ≤ word.length ∧
          o.fuzzyThreshold ≤ fuzzySimilarity word (normalized o.caseSensitive query).data)) →
      m.type ≠ .fuzzy) := by
  refine ⟨?_, fun word h3 => fuzzySimilarity_bounds word _ h3, ?_⟩
  · intro m h htype
    obtain ⟨-, -, hcase⟩ := calculateFieldScore_shape h
    rcases hcase with ⟨hpre, rfl⟩ | ⟨hnpre, pos, hidx, rfl⟩ | ⟨hnpre, hidx, hlen, hbf⟩
    · simp at htype
    · simp at htype
    · rw [normalized_length] at hlen
      refine ⟨hlen, ?_, ?_⟩
      · obtain ⟨-, -, word, hmem, hcand⟩ := bestFuzzy_some_shape hbf
        obtain ⟨h3, hth, hxeq⟩ := fuzzyCandidate_some hcand
        obtain ⟨hb0, hb1⟩ := fuzzySimilarity_bounds word (normalized o.caseSensitive query).data h3
        refine ⟨word, hmem, h3, hth, hb0, hb1, ?_⟩
        rw [hxeq]
      · intro word hmem h3 hth
        unfold bestFuzzy at hbf
        obtain ⟨-, -, hall⟩ := (bestFuzzy_fold text (normalized o.caseSensitive query).data w o
          (splitByPred Char.isWhitespace (normalized o.caseSensitive text).data) none).2 m hbf
        have hcand := @fuzzyCandidate_of_qualifies text
          (normalized o.caseSensitive query).data w o word h3 hth
        have := hall word hmem _ hcand
        simpa using this
  · intro m h hnone htype
    obtain ⟨-, -, hcase⟩ := calculateFieldScore_shape h
    rcases hcase with ⟨hpre, rfl⟩ | ⟨hnpre, pos, hidx, rfl⟩ | ⟨hnpre, hidx, hlen, hbf⟩
    · simp at htype
    · simp at htype
    · obtain ⟨-, -, word, hmem, hcand⟩ := bestFuzzy_some_shape hbf
      obtain ⟨h3, hth, -⟩ := fuzzyCandidate_some hcand
      exact hnone word hmem ⟨h3, hth⟩

/-- C6 witness: scenario 3 — text
`"this has multiple words for testing"`, query `"multipel"`, threshold 0.6 —
produces the fuzzy match on the word `multiple` with similarity 3/4 and score
18/7, and the instantiated C6 properties hold there. -/
theorem c6_fuzzy_match_spec_witness :
    (0 : ℚ) < 1 ∧
    calculateFieldScore "this has multiple words for testing" "multipel" 1 c6Opts = some c6m ∧
    ((∀ m, calculateFieldScore "this has multiple words for testing" "multipel" 1 c6Opts = some m →
        m.type = .fuzzy →
        c6Opts.minFuzzyLength ≤ ("multipel" : String).length ∧
        (∃ word ∈ splitByPred Char.isWhitespace
            (normalized c6Opts.caseSensitive "this has multiple words for testing").data,
          3 ≤ word.length ∧
          c6Opts.fuzzyThreshold ≤ fuzzySimilarity word (normalized c6Opts.caseSensitive "multipel").data ∧
          0 ≤ fuzzySimilarity word (normalized c6Opts.caseSensitive "multipel").data ∧
          fuzzySimilarity word (normalized c6Opts.caseSensitive "multipel").data ≤ 1 ∧
          m.score = fuzzyScore "this has multiple words for testing"
            (normalized c6Opts.caseSensitive "multipel").data word 1) ∧
        (∀ word ∈ splitByPred Char.isWhitespace
            (normalized c6Opts.caseSensitive "this has multiple words for testing").data,
          3 ≤ word.length →
          c6Opts.fuzzyThreshold ≤ fuzzySimilarity word (normalized c6Opts.caseSensitive "multipel").data →
          fuzzyScore "this has multiple words for testing"
            (normalized c6Opts.caseSensitive "multipel").data word 1 ≤ m.score)) ∧
      (∀ word : List Char, 3 ≤ word.length →
        0 ≤ fuzzySimilarity word (normalized c6Opts.caseSensitive "multipel").data ∧
        fuzzySimilarity word (normalized c6Opts.caseSensitive "multipel").data ≤ 1) ∧
      (∀ m, calculateFieldScore "this has multiple words for testing" "multipel" 1 c6Opts = some m →
        (∀ word ∈ splitByPred Char.isWhitespace
            (normalized c6Opts.caseSensitive "this has multiple words for testing").data,
          ¬ (3 ≤ word.length ∧
            c6Opts.fuzzyThreshold ≤ fuzzySimilarity word (normalized c6Opts.caseSensitive "multipel").data)) →
        m.type ≠ .fuzzy)) :=
  ⟨by norm_num, by decide,
    c6_fuzzy_match_spec "this has multiple words for testing" "multipel" 1 c6Opts (by norm_num)⟩

/-- C9: when the trimmed query is empty, `search` returns one Result per
record — score 0, no matches — in original collection order, of length equal
to the collection's length, bypassing field detection, statistics and
matching entirely. -/
theorem c9_empty_query_passthrough (data : List Value) (query : String)
    (options : SearchOptions) (h : jsTrim query.data = []) :
    search data query options =
      some (data.map (fun item => { item := item, score := 0, matchArr := [] })) ∧
    (data.map (fun item => ({ item := item, score := 0, matchArr := [] } : SearchResult))).length =
      data.length := by
  constructor
  · unfold search
    rw [if_pos h]
  · simp

/-- C9 witness: a two-record collection searched with the whitespace query
`"  "` passes both records through with score 0 and no matches. -/
theorem c9_empty_query_passthrough_witness :
    jsTrim ("  " : String).data = [] ∧
    (search [Value.obj [("a", Value.str "b")], Value.null] "  " {} =
        some [{ item := Value.obj [("a", Value.str "b")], score := 0, matchArr := [] },
              { item := Value.null, score := 0, matchArr := [] }] ∧
      ([Value.obj [("a", Value.str "b")], Value.null].map
          (fun item => ({ item := item, score := 0, matchArr := [] } : SearchResult))).length =
        [Value.obj [("a", Value.str "b")], Value.null].length) :=
  ⟨by decide, c9_empty_query_passthrough [Value.obj [("a", Value.str "b")], Value.null] "  " {} (by decide)⟩

theorem foldKeys_empty (ks : List (List Char)) :
    ks.foldl (fun current key =>
        match jsLookup current (String.mk key) with
        | some v => v
        | none => Value.str "") (Value.str "") = Value.str "" := by
  induction ks with
  | nil => rfl
  | cons k ks ih => simpa [jsLookup] using ih

theorem foldKeys_resolve (ks : List (List Char)) :
    ∀ v : Value, ks.foldl (fun current key =>
        match jsLookup current (String.mk key) with
        | some v => v
        | none => Value.str "") v =
      (match resolvePath v (ks.map String.mk) with
        | some r => r
        | none => Value.str "") := by
  induction ks with
  | nil =>
    intro v
    rfl
  | cons k ks ih =>
    intro v
    simp only [List.foldl_cons, List.map_cons]
    cases hjk : jsLookup v (String.mk k) with
    | none =>
      rw [foldKeys_empty ks]
      simp [resolvePath, hjk]
    | some wv =>
      rw [ih wv]
      simp [resolvePath, hjk]

/-- C3, amended: resolving a dotted path never raises (the model is total by
construction) and yields the raw value at the path when every segment
resolves — a string is its own text, a terminal `null` coalesces to `""` —
while any failing segment yields the empty-string absent marker.  The
uncorrected part of the original claim fails because a terminal non-string
value (number, boolean, object, array) is returned as-is. -/
theorem c3_extract_amended (obj : Value) (path : String) :
    getNestedValue obj path =
      (match resolvePath obj ((splitOnChar '.' path.data).map String.mk) with
        | some Value.null => Value.str ""
        | some v => v
        | none => Value.str "") := by
  unfold getNestedValue
  rw [foldKeys_resolve (splitOnChar '.' path.data) obj]
  cases hr : resolvePath obj ((splitOnChar '.' path.data).map String.mk) with
  | none => rfl
  | some v => cases v <;> rfl

/-- C3 counterexample: `getNestedValue {a: 42} "a"` is the number 42, not a
string — the original claim that extraction always returns a string fails at
a terminal non-string value. -/
theorem c3_nonstring_counterexample :
    getNestedValue c3Obj "a" = Value.num 42 ∧
    ¬ ∃ s, getNestedValue c3Obj "a" = Value.str s := by
  constructor
  · rfl
  · rintro ⟨s, hs⟩
    rw [show getNestedValue c3Obj "a" = Value.num 42 from rfl] at hs
    cases hs

theorem fieldStats_fold (fieldPath : String) (sample : List Value) :
    ∀ tc : Nat × Nat,
      sample.foldl (fun (tc : Nat × Nat) item =>
        match getNestedValue item fieldPath with
        | .str s => if 0 < s.length then (tc.1 + s.length, tc.2 + 1) else tc
        | _ => tc) tc =
      (tc.1 + (validFieldLengths sample fieldPath).sum,
        tc.2 + (validFieldLengths sample fieldPath).length) := by
  induction sample with
  | nil =>
    intro tc
    simp [validFieldLengths]
  | cons item rest ih =>
    intro tc
    simp only [List.foldl_cons, validFieldLengths, List.filterMap_cons]
    cases hv : getNestedValue item fieldPath with
    | str s =>
      by_cases hs : 0 < s.length
      · simp only [hv, if_pos hs]
        rw [ih]
        simp only [validFieldLengths, List.sum_cons, List.length_cons, Prod.mk.injEq]
        constructor <;> omega
      · simp only [hv, if_neg hs]
        rw [ih]
        simp only [validFieldLengths]
    | num q => rw [ih]; simp only [validFieldLengths]
    | bool b => rw [ih]; simp only [validFieldLengths]
    | null => rw [ih]; simp only [validFieldLengths]
    | obj fs => rw [ih]; simp only [validFieldLengths]
    | arr es => rw [ih]; simp only [validFieldLengths]

theorem avg_eq (lens : List Nat) :
    (if 0 < lens.length then ((lens.sum : Nat) : ℚ) / ((lens.length : Nat) : ℚ) else 0) =
      avgOf lens := by
  unfold avgOf
  cases lens with
  | nil => simp
  | cons a l => simp

theorem baseWeight_eq (fieldName : String) :
    (if (["title", "name", "heading"] : List String).contains fieldName then (5 : ℚ)
      else if (["description", "summary", "subtitle"] : List String).contains fieldName then 3
      else if (["content", "body", "text"] : List String).contains fieldName then 1
      else 1) = baseWeightOf fieldName := by
  unfold baseWeightOf
  simp only [List.contains_cons, List.contains_nil, Bool.or_false, Bool.or_eq_true,
    beq_iff_eq]
  split_ifs <;> tauto

/-- C4, amended: the optimized estimator samples exactly the first 100
records (it equals the baseline estimator run on `take 100`, so records
beyond index 100 never influence it), while the baseline estimator in
`src/index.ts` scans the whole collection with no cap; for the records
actually scanned, `averageLength` is the mean length of the non-empty string
values at the path (0 when there are none) and the weight is
`baseWeight(last segment) * lengthWeight(averageLength)` with the claimed
buckets. -/
theorem c4_field_stats_amended :
    (∀ (data : List Value) (fieldPath : String),
      calculateFieldStatsOpt data fieldPath = calculateFieldStats (data.take 100) fieldPath) ∧
    (∀ (data : List Value) (fieldPath : String),
      calculateFieldStatsOpt data fieldPath = calculateFieldStatsOpt (data.take 100) fieldPath) ∧
    (∀ (sample : List Value) (fieldPath : String),
      fieldStatsOf sample fieldPath =
        (avgOf (validFieldLengths sample fieldPath),
          baseWeightOf (lastSegmentLower fieldPath) *
            lengthWeightOf (avgOf (validFieldLengths sample fieldPath)))) := by
  refine ⟨fun data fieldPath => rfl, ?_, ?_⟩
  · intro data fieldPath
    unfold calculateFieldStatsOpt
    rw [List.take_take]
    norm_num
  · intro sample fieldPath
    simp only [fieldStatsOf]
    rw [fieldStats_fold fieldPath sample (0, 0)]
    simp only [Nat.zero_add]
    rw [avg_eq, baseWeight_eq]
    rfl

set_option maxRecDepth 100000 in
/-- C4 counterexample: on a collection of 101 records (100 one-character
values and one 102-character value at index 100), the baseline
`calculateFieldStats` of `src/index.ts` reports average length 2, while the
first-100 sample gives 1 — the record beyond index 100 changes
`averageLength`, contradicting the claimed sampling cap. -/
theorem c4_sampling_counterexample :
    (calculateFieldStats c4Data "a").1 = 2 ∧
    (calculateFieldStats (c4Data.take 100) "a").1 = 1 ∧
    (calculateFieldStatsOpt c4Data "a").1 = 1 ∧
    (2 : ℚ) ≠ 1 := by
  refine ⟨by decide, by decide, by decide, by norm_num⟩

set_option maxRecDepth 1000000 in
/-- C1 divergence: with `limit: 1` the optimized engine stops scanning after
`limit * 3 = 3` matching records and returns the best of the first three (a
weak substring match, score 517/30), although the fourth record is an
exact-start match (score 20) that tops the unbounded ranking — so the
truncated output is not the top-1 of the unbounded result.  The baseline
`search` of `src/index.ts` returns the correct top-1 on the same input. -/
theorem c1_limit_early_termination_divergence :
    ((searchOpt none c1Data "q" c1Opts1).1
        |>.map (fun l => l.map (fun r => r.matchArr.map (fun m => m.value)))) = some [[c1Weak]] ∧
    ((searchOpt none c1Data "q" c1Opts0).1
        |>.map (fun l => (l.take 1).map (fun r => r.matchArr.map (fun m => m.value)))) =
      some [[c1Strong]] ∧
    ((search c1Data "q" c1Opts1)
        |>.map (fun l => l.map (fun r => r.matchArr.map (fun m => m.value)))) = some [[c1Strong]] ∧
    c1Weak ≠ c1Strong := by
  refine ⟨by decide, by decide, by decide, by decide⟩

set_option maxRecDepth 1000000 in
/-- C2 divergence: the optimized engine's field-statistics cache is keyed by
collection identity only, not by field set.  After a first call with
`fields: ["other"]`, a second call with `fields: ["title"]` finds the stale
cache entry, misses the `title` statistics, falls back to weight 1 and scores
the prefix hit 20 — while the same call against a cold cache infers weight 10
and scores it 200.  Cache state changes the returned scores. -/
theorem c2_cache_dependence_divergence :
    ((searchOpt ((searchOpt none c2Data "apple" c2Opts1).2) c2Data "apple" c2Opts2).1
        |>.map (fun l => l.map (fun r => r.score))) = some [20] ∧
    ((searchOpt none c2Data "apple" c2Opts2).1
        |>.map (fun l => l.map (fun r => r.score))) = some [200] ∧
    ((20 : ℚ)) ≠ 200 := by
  refine ⟨by decide, by decide, by norm_num⟩
